import Mathlib

/-!
Shallow embedding of the ECR-Cleanup retention decision logic.

The repository contains two variants of the cleanup script:

* `src/scripts/main.go` — "Variant B": per-prefix top-2 retention plus an
  age cutoff (`retention` days, read from the user) for the remainder.
* `src/scripts/test.go` — "Variant A": one global ranking of all
  prefix-matched tagged images, of which the top 2 are kept and the rest
  (together with all untagged images) are deleted.

Timestamps are modelled as `Int` nanoseconds (Go `time.Time` differences
are `time.Duration` nanosecond counts); float arithmetic in
`time.Since(t).Hours() / 24` is idealized as exact rational arithmetic,
so the Go conversion `int(...)` becomes truncating integer division
(`Int.tdiv`).  Digests and tags are `String`s.
-/

namespace ECRCleanup

/-- Record of one image as returned by `DescribeImages`:
digest, tag list (possibly empty) and optional push timestamp
(`ImagePushedAt` may be `nil`). -/
structure ImageDetail where
  imageDigest : String
  imageTags : List String
  imagePushedAt : Option Int
deriving DecidableEq

/-- The `taggedImage` record of `src/scripts/main.go` (step 7): digest,
tags and a present push time. -/
structure TaggedImage where
  digest : String
  tags : List String
  pushedTime : Int
deriving DecidableEq

/-- Decision actions of the spec's data model. -/
inductive Action where
  | KEEP
  | DELETE
deriving DecidableEq

/-- Decision reasons of the spec's data model. -/
inductive Reason where
  | RETAINED_RECENT_MATCH
  | UNTAGGED
  | AGED_OUT
  | RETAINED_WITHIN_AGE
deriving DecidableEq

/-- Per-image output of the retention engine. -/
structure Decision where
  digest : String
  action : Action
  reason : Reason
deriving DecidableEq

/-- Go `strings.HasPrefix(s, pre)`, modelled on the character lists. -/
def hasPrefixGo (s pre : String) : Bool :=
  List.isPrefixOf pre.data s.data

/-- Lexicographic (byte-wise in Go, character-wise here) strict order on
strings, as used by Go string comparison. -/
def lexLt : List Char → List Char → Bool
  | [], [] => false
  | [], _ :: _ => true
  | _ :: _, [] => false
  | a :: as, b :: bs => if a < b then true else if b < a then false else lexLt as bs

/-- Nanoseconds in a day: the divisor hidden in
`time.Since(t).Hours() / 24` of `src/scripts/main.go:142`. -/
def nsPerDay : Int := 86400000000000

/-- The age computation `int(time.Since(*image.ImagePushedAt).Hours() / 24)`
of `src/scripts/main.go:142`: elapsed nanoseconds divided by a day,
truncated toward zero (Go `int(...)` conversion of a float). -/
def imageAge (now pushed : Int) : Int :=
  Int.tdiv (now - pushed) nsPerDay

/-- Insertion step of the sort model.  The Go comparator in both scripts is
`images[i].pushedTime.After(images[j].pushedTime)`, i.e. sort by push time
descending; it never inspects digests.  `a` is inserted before the first
element it is strictly more recent than, hence after all elements with the
same push time. -/
def insertByTime (a : TaggedImage) : List TaggedImage → List TaggedImage
  | [] => [a]
  | b :: l => if b.pushedTime < a.pushedTime then a :: b :: l else b :: insertByTime a l

/-- Model of `sort.Slice(images, ...After...)` in both scripts: a sort that
respects the push-time-descending comparator.  On distinct push times every
comparator-respecting sort agrees; for ties this model keeps input order
(Go's `sort.Slice` leaves the order of ties unspecified, and its small-size
insertion sort also preserves input order of ties). -/
def sortByTimeDesc (l : List TaggedImage) : List TaggedImage :=
  l.foldl (fun acc a => insertByTime a acc) []

/-- The first retained prefix (in list order) that a tag matches: the inner
loop of `src/scripts/main.go:112-121` appends to the group of the first
matching prefix and then breaks out of the prefix loop. -/
def firstMatch (prefixes : List String) (tag : String) : Option String :=
  prefixes.find? (fun p => hasPrefixGo tag p)

/-- The entries an image contributes to `prefixMatchMap[p]` in
`src/scripts/main.go:107-123`: images with a `nil` push time or no tags are
skipped; otherwise the image is appended once for every tag whose first
matching prefix is `p`. -/
def imageGroupEntries (prefixes : List String) (p : String) (img : ImageDetail) : List TaggedImage :=
  match img.imagePushedAt with
  | none => []
  | some t =>
    if img.imageTags = [] then []
    else
      (img.imageTags.filter (fun tag => firstMatch prefixes tag == some p)).map
        (fun _ => TaggedImage.mk img.imageDigest img.imageTags t)

/-- The group `prefixMatchMap[p]` of `src/scripts/main.go`, in input order. -/
def matchMap (prefixes : List String) (images : List ImageDetail) (p : String) : List TaggedImage :=
  images.flatMap (imageGroupEntries prefixes p)

/-- The `retainedDigests` set of `src/scripts/main.go:126-135`: for each
prefix group, sort by push time descending and keep the first 2 digests
(`i < 2` is hard-coded); membership in the resulting list models membership
in the Go set.  Go iterates the map keys, which is the same union. -/
def retainedDigests (prefixes : List String) (images : List ImageDetail) : List String :=
  prefixes.flatMap
    (fun p => ((sortByTimeDesc (matchMap prefixes images p)).take 2).map TaggedImage.digest)

/-- The per-image classification of step 9 of `src/scripts/main.go:138-175`.
Images with `nil` push time are skipped (`none`).  Untagged images are
logged as delete candidates (reason UNTAGGED); retained digests are logged
as KEEP (RETAINED_RECENT_MATCH); other tagged images are deleted when
`imageAge > retention` (AGED_OUT).  The silent fall-through — tagged, not
retained, not older than `retention` — performs no action, which the spec
names KEEP with reason RETAINED_WITHIN_AGE. -/
def decideImageB (retainedSet : List String) (retention now : Int) (img : ImageDetail) : Option Decision :=
  match img.imagePushedAt with
  | none => none
  | some t =>
    if img.imageTags = [] then
      some (Decision.mk img.imageDigest Action.DELETE Reason.UNTAGGED)
    else if retainedSet.contains img.imageDigest then
      some (Decision.mk img.imageDigest Action.KEEP Reason.RETAINED_RECENT_MATCH)
    else if imageAge now t > retention then
      some (Decision.mk img.imageDigest Action.DELETE Reason.AGED_OUT)
    else
      some (Decision.mk img.imageDigest Action.KEEP Reason.RETAINED_WITHIN_AGE)

/-- Variant B evaluation of one repository (`src/scripts/main.go` steps
7-9).  `now` is the ambient clock value read by `time.Since` during the
run, made explicit here. -/
def evaluateB (prefixes : List String) (retention now : Int) (images : List ImageDetail) : List Decision :=
  images.filterMap (decideImageB (retainedDigests prefixes images) retention now)

/-- The digests for which step 9 of `src/scripts/main.go` actually reaches
the `BatchDeleteImage` call: tagged, not retained, `imageAge > retention`,
and not in dry-run mode.  Untagged images only produce a log line
(`main.go:145-148`) and `continue`. -/
def deleteCallsB (prefixes : List String) (retention now : Int) (dryRun : Bool) (images : List ImageDetail) : List String :=
  images.filterMap (fun img =>
    match img.imagePushedAt with
    | none => none
    | some t =>
      if img.imageTags = [] then none
      else if (retainedDigests prefixes images).contains img.imageDigest then none
      else if imageAge now t > retention then
        (if dryRun then none else some img.imageDigest)
      else none)

/-- The `matched` flag of `src/scripts/test.go:102-113`: some tag has some
retained prefix as a prefix. -/
def matchedA (prefixes : List String) (img : ImageDetail) : Bool :=
  img.imageTags.any (fun tag => prefixes.any (fun p => hasPrefixGo tag p))

/-- Per-image step of the filtering loop of `src/scripts/test.go:92-118`:
an image with a push time and at least one tag joins `taggedMatches` when
one of its tags matches a retained prefix. -/
def matchEntryA (prefixes : List String) (img : ImageDetail) : Option TaggedImage :=
  match img.imagePushedAt with
  | none => none
  | some t =>
    if img.imageTags = [] then none
    else if matchedA prefixes img then some (TaggedImage.mk img.imageDigest img.imageTags t)
    else none

/-- The `taggedMatches` list of `src/scripts/test.go:89-118`: images with a
push time and at least one tag, at least one of whose tags matches a
retained prefix, in input order. -/
def taggedMatchesA (prefixes : List String) (images : List ImageDetail) : List TaggedImage :=
  images.filterMap (matchEntryA prefixes)

/-- The `untagged` list of `src/scripts/test.go:97-99`: images with a push
time and no tags. -/
def untaggedA (images : List ImageDetail) : List ImageDetail :=
  images.filter (fun img => img.imagePushedAt.isSome && img.imageTags = [])

/-- The `keepMap` of `src/scripts/test.go:126-132`: the digests of the first
2 entries of the sorted `taggedMatches` (the slice is sorted in place, so
the range loop sees the sorted order). -/
def keepDigestsA (prefixes : List String) (images : List ImageDetail) : List String :=
  ((sortByTimeDesc (taggedMatchesA prefixes images)).take 2).map TaggedImage.digest

/-- Variant A evaluation (`src/scripts/test.go`): the first 2 of the sorted
matched images are kept (logged at test.go:129); every other matched image
and every untagged image is deleted (test.go:134-161).  Reasons follow the
spec's naming: kept matches are RETAINED_RECENT_MATCH, deleted matches are
AGED_OUT, untagged deletions are UNTAGGED.  Tagged images matching no
prefix are absent: the code neither keeps nor deletes them. -/
def evaluateA (prefixes : List String) (images : List ImageDetail) : List Decision :=
  ((sortByTimeDesc (taggedMatchesA prefixes images)).take 2).map
      (fun i => Decision.mk i.digest Action.KEEP Reason.RETAINED_RECENT_MATCH)
    ++ ((sortByTimeDesc (taggedMatchesA prefixes images)).filter
          (fun i => !((keepDigestsA prefixes images).contains i.digest))).map
        (fun i => Decision.mk i.digest Action.DELETE Reason.AGED_OUT)
    ++ (untaggedA images).map (fun i => Decision.mk i.imageDigest Action.DELETE Reason.UNTAGGED)

/-- Number of decisions for a given digest in an output list. -/
def decCount (ds : List Decision) (d : String) : Nat :=
  ds.countP (fun x => x.digest == d)

/-- Uniform shift of an image's push timestamp, used to express that
decisions depend on time only through differences. -/
def shiftImage (delta : Int) (img : ImageDetail) : ImageDetail :=
  ImageDetail.mk img.imageDigest img.imageTags (img.imagePushedAt.map (fun t => t + delta))

/-- Uniform shift of a tagged-image record's push timestamp. -/
def shiftTagged (delta : Int) (a : TaggedImage) : TaggedImage :=
  TaggedImage.mk a.digest a.tags (a.pushedTime + delta)

/-- Prefix group as the SPEC words it (section 4.1, Variant B, step 1):
"the group of tagged images having at least one tag matching that prefix
(an image may belong to multiple prefix groups)".  This is the
specification-side definition, to be compared with `matchMap`, which is
the implementation-side group keyed by each tag's FIRST matching prefix. -/
def specGroupB (prefixes : List String) (images : List ImageDetail) (p : String) : List TaggedImage :=
  images.filterMap (fun img =>
    match img.imagePushedAt with
    | none => none
    | some t =>
      if img.imageTags = [] then none
      else if p ∈ prefixes ∧ img.imageTags.any (fun tag => hasPrefixGo tag p) then
        some (TaggedImage.mk img.imageDigest img.imageTags t)
      else none)

/-- Inserting into the sort accumulator is a permutation. -/
theorem insertByTime_perm (a : TaggedImage) (l : List TaggedImage) :
    (insertByTime a l).Perm (a :: l) := by
  induction l with
  | nil => simp [insertByTime]
  | cons b l ih =>
    simp only [insertByTime]
    by_cases h : b.pushedTime < a.pushedTime
    · rw [if_pos h]
    · rw [if_neg h]
      exact (ih.cons b).trans (List.Perm.swap a b l)

/-- Membership in the insertion step. -/
theorem mem_insertByTime {e a : TaggedImage} {l : List TaggedImage} :
    e ∈ insertByTime a l ↔ e = a ∨ e ∈ l := by
  rw [(insertByTime_perm a l).mem_iff, List.mem_cons]

theorem foldl_insertByTime_perm (l : List TaggedImage) :
    ∀ acc : List TaggedImage,
      (l.foldl (fun acc a => insertByTime a acc) acc).Perm (l ++ acc) := by
  induction l with
  | nil => intro acc; simp
  | cons a l ih =>
    intro acc
    have h1 : ((a :: l).foldl (fun acc a => insertByTime a acc) acc)
        = l.foldl (fun acc a => insertByTime a acc) (insertByTime a acc) := rfl
    rw [h1]
    have h2 := ih (insertByTime a acc)
    have h3 : (l ++ insertByTime a acc).Perm (l ++ (a :: acc)) :=
      List.Perm.append_left l (insertByTime_perm a acc)
    have h4 : (l ++ (a :: acc)).Perm (a :: (l ++ acc)) := List.perm_middle
    exact (h2.trans h3).trans h4

/-- The sort model is a permutation of its input. -/
theorem sortByTimeDesc_perm (l : List TaggedImage) : (sortByTimeDesc l).Perm l := by
  have h := foldl_insertByTime_perm l []
  simpa [sortByTimeDesc] using h

/-- Inserting into a list sorted by push time descending keeps it sorted. -/
theorem sorted_insertByTime (a : TaggedImage) {l : List TaggedImage}
    (h : List.Sorted (fun x y => y.pushedTime ≤ x.pushedTime) l) :
    List.Sorted (fun x y => y.pushedTime ≤ x.pushedTime) (insertByTime a l) := by
  induction l with
  | nil => simp [insertByTime]
  | cons b l ih =>
    rw [List.sorted_cons] at h
    obtain ⟨hb, hl⟩ := h
    simp only [insertByTime]
    by_cases hba : b.pushedTime < a.pushedTime
    · rw [if_pos hba, List.sorted_cons]
      refine ⟨?_, ?_⟩
      · intro x hx
        rcases List.mem_cons.mp hx with rfl | hx'
        · exact le_of_lt hba
        · exact le_trans (hb x hx') (le_of_lt hba)
      · rw [List.sorted_cons]
        exact ⟨hb, hl⟩
    · rw [if_neg hba, List.sorted_cons]
      refine ⟨?_, ih hl⟩
      intro x hx
      rcases mem_insertByTime.mp hx with rfl | hx'
      · exact le_of_not_lt hba
      · exact hb x hx'

theorem sorted_foldl_insertByTime (l : List TaggedImage) :
    ∀ acc : List TaggedImage,
      List.Sorted (fun x y => y.pushedTime ≤ x.pushedTime) acc →
      List.Sorted (fun x y => y.pushedTime ≤ x.pushedTime)
        (l.foldl (fun acc a => insertByTime a acc) acc) := by
  induction l with
  | nil => intro acc h; exact h
  | cons a l ih =>
    intro acc h
    exact ih (insertByTime a acc) (sorted_insertByTime a h)

/-- The sort model sorts by push time descending. -/
theorem sorted_sortByTimeDesc (l : List TaggedImage) :
    List.Sorted (fun x y => y.pushedTime ≤ x.pushedTime) (sortByTimeDesc l) :=
  sorted_foldl_insertByTime l [] (by simp)

/-- Effect of one insertion on the subsequence of entries with a given push
time: the new element lands after all existing entries of that time. -/
theorem filter_time_insertByTime (t : Int) (a : TaggedImage) {l : List TaggedImage}
    (h : List.Sorted (fun x y => y.pushedTime ≤ x.pushedTime) l) :
    (insertByTime a l).filter (fun b => b.pushedTime == t)
      = l.filter (fun b => b.pushedTime == t)
        ++ (if a.pushedTime == t then [a] else []) := by
  induction l with
  | nil =>
    by_cases pa : a.pushedTime == t <;> simp [insertByTime, List.filter_cons, pa]
  | cons b l ih =>
    rw [List.sorted_cons] at h
    obtain ⟨hb, hl⟩ := h
    simp only [insertByTime]
    by_cases hba : b.pushedTime < a.pushedTime
    · rw [if_pos hba]
      by_cases pa : a.pushedTime == t
      · have hat : a.pushedTime = t := eq_of_beq pa
        have hnil : (b :: l).filter (fun x => x.pushedTime == t) = [] := by
          rw [List.filter_eq_nil_iff]
          intro x hx
          have hxb : x.pushedTime ≤ b.pushedTime := by
            rcases List.mem_cons.mp hx with rfl | hx'
            · exact le_refl _
            · exact hb x hx'
          have hxa : x.pushedTime < t := hat ▸ lt_of_le_of_lt hxb hba
          simp only [beq_iff_eq]
          omega
        rw [List.filter_cons_of_pos (by simpa using pa), hnil, if_pos pa]
        rfl
      · rw [List.filter_cons_of_neg (by simpa using pa), if_neg pa, List.append_nil]
    · rw [if_neg hba]
      by_cases pb : b.pushedTime == t
      · rw [List.filter_cons_of_pos (by simpa using pb),
          List.filter_cons_of_pos (by simpa using pb), ih hl, List.cons_append]
      · rw [List.filter_cons_of_neg (by simpa using pb),
          List.filter_cons_of_neg (by simpa using pb), ih hl]

theorem filter_time_foldl_insertByTime (t : Int) (l : List TaggedImage) :
    ∀ acc : List TaggedImage,
      List.Sorted (fun x y => y.pushedTime ≤ x.pushedTime) acc →
      (l.foldl (fun acc a => insertByTime a acc) acc).filter (fun b => b.pushedTime == t)
        = acc.filter (fun b => b.pushedTime == t) ++ l.filter (fun b => b.pushedTime == t) := by
  induction l with
  | nil => intro acc h; simp
  | cons a l ih =>
    intro acc h
    have step := ih (insertByTime a acc) (sorted_insertByTime a h)
    have h1 : ((a :: l).foldl (fun acc a => insertByTime a acc) acc)
        = l.foldl (fun acc a => insertByTime a acc) (insertByTime a acc) := rfl
    rw [h1, step, filter_time_insertByTime t a h]
    by_cases pa : a.pushedTime == t
    · rw [if_pos pa, List.filter_cons_of_pos (by simpa using pa), List.append_assoc]
      rfl
    · rw [if_neg pa, List.filter_cons_of_neg (by simpa using pa), List.append_nil]

/-- The sort model preserves the input order of images sharing a push time. -/
theorem sortByTimeDesc_filter_stable (l : List TaggedImage) (t : Int) :
    (sortByTimeDesc l).filter (fun b => b.pushedTime == t)
      = l.filter (fun b => b.pushedTime == t) := by
  have h := filter_time_foldl_insertByTime t l [] (by simp)
  simpa [sortByTimeDesc] using h

/-- Claim C3 (amended): the sort comparator in both variants looks only at
`pushedAt`; there is no digest tie-break.  The model sort is ordered by push
time descending, and images with identical push time keep their input order
(ties are resolved by position, not by digest), so with one slot left the
earlier-listed image is kept regardless of digest order. -/
theorem sort_sorted_and_tie_stable (l : List TaggedImage) :
    List.Sorted (fun x y => y.pushedTime ≤ x.pushedTime) (sortByTimeDesc l)
    ∧ ∀ t : Int, (sortByTimeDesc l).filter (fun b => b.pushedTime == t)
        = l.filter (fun b => b.pushedTime == t) :=
  ⟨sorted_sortByTimeDesc l, fun t => sortByTimeDesc_filter_stable l t⟩

/-- Claim C3 counterexample: three matched images, two of which share a
push time, with the lexicographically smaller digest listed later.  Exactly
one ranking slot remains after the most recent image, and the code keeps
the tied image with the LARGER digest (the one listed first), refuting the
digest-ascending tie-break. -/
theorem tie_break_ignores_digest_cex :
    (ImageDetail.mk "sha-b" ["v2"] (some 5)).imagePushedAt
        = (ImageDetail.mk "sha-a" ["v3"] (some 5)).imagePushedAt
      ∧ lexLt "sha-a".data "sha-b".data = true
      ∧ keepDigestsA ["v"]
          [ImageDetail.mk "sha-c" ["v1"] (some 10),
           ImageDetail.mk "sha-b" ["v2"] (some 5),
           ImageDetail.mk "sha-a" ["v3"] (some 5)] = ["sha-c", "sha-b"]
      ∧ (keepDigestsA ["v"]
          [ImageDetail.mk "sha-c" ["v1"] (some 10),
           ImageDetail.mk "sha-b" ["v2"] (some 5),
           ImageDetail.mk "sha-a" ["v3"] (some 5)]).contains "sha-a" = false := by
  refine ⟨rfl, by decide, by decide, by decide⟩

theorem insertByTime_shift (delta : Int) (a : TaggedImage) (l : List TaggedImage) :
    insertByTime (shiftTagged delta a) (l.map (shiftTagged delta))
      = (insertByTime a l).map (shiftTagged delta) := by
  induction l with
  | nil => rfl
  | cons b l ih =>
    simp only [List.map_cons, insertByTime, shiftTagged]
    by_cases h : b.pushedTime < a.pushedTime
    · rw [if_pos (by omega : b.pushedTime + delta < a.pushedTime + delta), if_pos h]
      rfl
    · rw [if_neg (by omega : ¬b.pushedTime + delta < a.pushedTime + delta), if_neg h]
      simp only [List.map_cons]
      rw [← ih]
      rfl

theorem sortByTimeDesc_shift (delta : Int) (l : List TaggedImage) :
    sortByTimeDesc (l.map (shiftTagged delta))
      = (sortByTimeDesc l).map (shiftTagged delta) := by
  have key : ∀ (l acc : List TaggedImage),
      (l.map (shiftTagged delta)).foldl (fun acc a => insertByTime a acc)
          (acc.map (shiftTagged delta))
        = (l.foldl (fun acc a => insertByTime a acc) acc).map (shiftTagged delta) := by
    intro l
    induction l with
    | nil => intro acc; rfl
    | cons a l ih =>
      intro acc
      have h1 : ((a :: l).map (shiftTagged delta)).foldl (fun acc a => insertByTime a acc)
            (acc.map (shiftTagged delta))
          = (l.map (shiftTagged delta)).foldl (fun acc a => insertByTime a acc)
            (insertByTime (shiftTagged delta a) (acc.map (shiftTagged delta))) := rfl
      rw [h1, insertByTime_shift delta a acc, ih (insertByTime a acc)]
      rfl
  have h := key l []
  simpa [sortByTimeDesc] using h

theorem imageGroupEntries_shift (prefixes : List String) (p : String) (delta : Int)
    (img : ImageDetail) :
    imageGroupEntries prefixes p (shiftImage delta img)
      = (imageGroupEntries prefixes p img).map (shiftTagged delta) := by
  cases hpt : img.imagePushedAt with
  | none => simp [imageGroupEntries, shiftImage, hpt]
  | some t =>
    by_cases h : img.imageTags = []
    · simp [imageGroupEntries, shiftImage, hpt, h]
    · simp only [imageGroupEntries, shiftImage, hpt, Option.map, if_neg h, List.map_map]
      rfl

theorem matchMap_shift (prefixes : List String) (p : String) (delta : Int)
    (images : List ImageDetail) :
    matchMap prefixes (images.map (shiftImage delta)) p
      = (matchMap prefixes images p).map (shiftTagged delta) := by
  unfold matchMap
  induction images with
  | nil => rfl
  | cons img images ih =>
    simp only [List.map_cons, List.flatMap_cons, List.map_append]
    rw [imageGroupEntries_shift, ih]

theorem retainedDigests_shift (prefixes : List String) (delta : Int)
    (images : List ImageDetail) :
    retainedDigests prefixes (images.map (shiftImage delta))
      = retainedDigests prefixes images := by
  unfold retainedDigests
  congr 1
  funext p
  rw [matchMap_shift, sortByTimeDesc_shift, ← List.map_take, List.map_map]
  rfl

theorem decideImageB_shift (retainedSet : List String) (retention now delta : Int)
    (img : ImageDetail) :
    decideImageB retainedSet retention (now + delta) (shiftImage delta img)
      = decideImageB retainedSet retention now img := by
  cases hpt : img.imagePushedAt with
  | none => simp [decideImageB, shiftImage, hpt]
  | some t =>
    have hage : imageAge (now + delta) (t + delta) = imageAge now t := by
      unfold imageAge
      congr 1
      omega
    simp only [decideImageB, shiftImage, hpt, Option.map, hage]

theorem taggedMatchesA_shift (prefixes : List String) (delta : Int)
    (images : List ImageDetail) :
    taggedMatchesA prefixes (images.map (shiftImage delta))
      = (taggedMatchesA prefixes images).map (shiftTagged delta) := by
  unfold taggedMatchesA
  rw [List.filterMap_map, List.map_filterMap]
  apply List.filterMap_congr
  intro img _
  simp only [Function.comp_apply]
  cases hpt : img.imagePushedAt with
  | none => simp [matchEntryA, shiftImage, hpt]
  | some t =>
    have hm2 : matchedA prefixes
        (ImageDetail.mk img.imageDigest img.imageTags (some (t + delta)))
        = matchedA prefixes img := rfl
    by_cases htag : img.imageTags = []
    · simp [matchEntryA, shiftImage, hpt, htag]
    · by_cases hmt : matchedA prefixes img
      · simp [matchEntryA, shiftImage, hpt, htag, hm2, hmt, shiftTagged]
      · simp [matchEntryA, shiftImage, hpt, htag, hm2, hmt]

theorem untaggedA_shift (delta : Int) (images : List ImageDetail) :
    untaggedA (images.map (shiftImage delta)) = (untaggedA images).map (shiftImage delta) := by
  unfold untaggedA
  rw [List.filter_map]
  congr 1
  apply List.filter_congr
  intro img _
  simp only [Function.comp_apply, shiftImage]
  cases img.imagePushedAt <;> rfl

theorem keepDigestsA_shift (prefixes : List String) (delta : Int)
    (images : List ImageDetail) :
    keepDigestsA prefixes (images.map (shiftImage delta)) = keepDigestsA prefixes images := by
  unfold keepDigestsA
  rw [taggedMatchesA_shift, sortByTimeDesc_shift, ← List.map_take, List.map_map]
  rfl

/-- Claim C4 (amended): Variant A never consults the clock — its output is
invariant under a uniform shift of every push timestamp.  Variant B reads
the ambient clock through `time.Since`; with that clock value made an
explicit parameter, its output depends on timestamps only through the
differences `now - pushedAt`, so evaluations with identical inputs, config
and clock value coincide. -/
theorem evaluate_shift_invariant (prefixes : List String) (retention now delta : Int)
    (images : List ImageDetail) :
    evaluateA prefixes (images.map (shiftImage delta)) = evaluateA prefixes images
    ∧ evaluateB prefixes retention (now + delta) (images.map (shiftImage delta))
        = evaluateB prefixes retention now images := by
  constructor
  · unfold evaluateA
    rw [taggedMatchesA_shift, sortByTimeDesc_shift, untaggedA_shift, keepDigestsA_shift,
      ← List.map_take, List.map_map, List.map_map, List.filter_map, List.map_map]
    have hflt : (List.filter
          ((fun i => !((keepDigestsA prefixes images).contains i.digest))
            ∘ shiftTagged delta)
          (sortByTimeDesc (taggedMatchesA prefixes images)))
        = List.filter
            (fun i => !((keepDigestsA prefixes images).contains i.digest))
            (sortByTimeDesc (taggedMatchesA prefixes images)) := by
      apply List.filter_congr
      intro x _
      rfl
    rw [hflt]
    rfl
  · unfold evaluateB
    rw [retainedDigests_shift, List.filterMap_map]
    apply List.filterMap_congr
    intro img _
    exact decideImageB_shift _ retention now delta img

/-- Claim C4 counterexample: `src/scripts/main.go` computes ages with
`time.Since`, i.e. the ambient wall clock, which is not part of the image
list or the config.  With the identical image list and config, running at
clock value 0 keeps the image while running 11 days later deletes it, so
the decisions are not a function of the image list and config alone. -/
theorem ambient_clock_changes_decisions :
    evaluateB ["x"] 10 0 [ImageDetail.mk "sha-g" ["y"] (some 0)]
        = [Decision.mk "sha-g" Action.KEEP Reason.RETAINED_WITHIN_AGE]
      ∧ evaluateB ["x"] 10 (11 * nsPerDay) [ImageDetail.mk "sha-g" ["y"] (some 0)]
        = [Decision.mk "sha-g" Action.DELETE Reason.AGED_OUT]
      ∧ Decision.mk "sha-g" Action.KEEP Reason.RETAINED_WITHIN_AGE
          ≠ Decision.mk "sha-g" Action.DELETE Reason.AGED_OUT := by
  refine ⟨by decide, by decide, by decide⟩

/-- The Variant B classification produces an output exactly when the image
has a push timestamp. -/
theorem decideImageB_isSome (retainedSet : List String) (retention now : Int)
    (img : ImageDetail) :
    (decideImageB retainedSet retention now img).isSome = img.imagePushedAt.isSome := by
  cases hpt : img.imagePushedAt with
  | none => simp [decideImageB, hpt]
  | some t =>
    simp only [decideImageB, hpt]
    split_ifs <;> simp

/-- Claim C5 counterexample: the scripts never validate the configuration.
With the invalid retention value `-1` (negative `maxAgeDays`), Variant B
does not fail; it evaluates the repository and produces a DELETE decision,
so decisions ARE produced for an invalid config, refuting the fail-fast
`ConfigurationError` behaviour. -/
theorem invalid_config_still_evaluates :
    evaluateB ["x"] (-1) 0 [ImageDetail.mk "sha-g" ["y"] (some 0)]
        = [Decision.mk "sha-g" Action.DELETE Reason.AGED_OUT]
      ∧ evaluateB ["x"] (-1) 0 [ImageDetail.mk "sha-g" ["y"] (some 0)] ≠ [] := by
  refine ⟨by decide, by decide⟩

/-- Claim C5 (amended): the implementation contains no configuration
validation and no `ConfigurationError` path.  For EVERY retention value and
prefix list, evaluation proceeds and emits one decision per image with a
push timestamp; in particular, with a negative retention every tagged,
non-retained image pushed at or before `now` is classified
DELETE/AGED_OUT rather than rejected. -/
theorem no_config_validation (prefixes : List String) (retention now : Int)
    (images : List ImageDetail) :
    (evaluateB prefixes retention now images).length
        = images.countP (fun img => img.imagePushedAt.isSome)
      ∧ (∀ img ∈ images, ∀ t : Int, img.imagePushedAt = some t → t ≤ now →
          retention < 0 → img.imageTags ≠ [] →
          (retainedDigests prefixes images).contains img.imageDigest = false →
          decideImageB (retainedDigests prefixes images) retention now img
            = some (Decision.mk img.imageDigest Action.DELETE Reason.AGED_OUT)) := by
  constructor
  · unfold evaluateB
    rw [List.length_filterMap_eq_countP]
    apply List.countP_congr
    intro img _
    rw [decideImageB_isSome]
  · intro img _ t hpt hle hneg htag hret
    have hdy : (0 : Int) ≤ nsPerDay := by norm_num [nsPerDay]
    have hage : 0 ≤ imageAge now t := Int.tdiv_nonneg (by omega) hdy
    have hgt : imageAge now t > retention := by omega
    have hnm : img.imageDigest ∉ retainedDigests prefixes images := by simpa using hret
    simp [decideImageB, hpt, htag, hnm, hgt]

/-- Witness for `no_config_validation` at a concrete invalid config. -/
theorem no_config_validation_witness :
    decideImageB (retainedDigests ["x"] [ImageDetail.mk "sha-g" ["y"] (some 0)]) (-1) 0
        (ImageDetail.mk "sha-g" ["y"] (some 0))
      = some (Decision.mk "sha-g" Action.DELETE Reason.AGED_OUT) :=
  (no_config_validation ["x"] (-1) 0 [ImageDetail.mk "sha-g" ["y"] (some 0)]).2
    (ImageDetail.mk "sha-g" ["y"] (some 0)) (by decide) 0 rfl (by decide) (by decide)
    (by decide) (by decide)

/-- Claim C7 counterexample: `int(time.Since(t).Hours() / 24)` truncates
toward zero, which differs from the floor when `pushedAt` lies in the
future.  For an image pushed 1.5 days after `now`, the floored age is `-2`;
with `maxAgeDays = -2` the claim's rule (`age > maxAgeDays` is false at
equality) mandates KEEP, but the code computes the truncated age `-1` and
deletes the image. -/
theorem age_trunc_not_floor_cex :
    imageAge 0 129600000000000 = -1
      ∧ Int.fdiv (0 - 129600000000000) nsPerDay = -2
      ∧ evaluateB ["x"] (-2) 0 [ImageDetail.mk "sha-f" ["y"] (some 129600000000000)]
        = [Decision.mk "sha-f" Action.DELETE Reason.AGED_OUT] := by
  refine ⟨by decide, by decide, by decide⟩

/-- Claim C7 (amended): the age is the elapsed time in days truncated
toward zero, which coincides with the floor whenever the image was pushed
at or before `now`.  Under that condition, a tagged non-retained image is
DELETE/AGED_OUT exactly when its age strictly exceeds the retention
threshold; at exact equality it is kept (the code performs no action,
which the spec names KEEP/RETAINED_WITHIN_AGE). -/
theorem age_boundary_amended (prefixes : List String) (retention now : Int)
    (images : List ImageDetail) (img : ImageDetail) (t : Int)
    (hpt : img.imagePushedAt = some t) (htag : img.imageTags ≠ [])
    (hret : (retainedDigests prefixes images).contains img.imageDigest = false)
    (hle : t ≤ now) :
    imageAge now t = Int.fdiv (now - t) nsPerDay
      ∧ (decideImageB (retainedDigests prefixes images) retention now img
            = some (Decision.mk img.imageDigest Action.DELETE Reason.AGED_OUT)
          ↔ retention < imageAge now t)
      ∧ (imageAge now t = retention →
          decideImageB (retainedDigests prefixes images) retention now img
            = some (Decision.mk img.imageDigest Action.KEEP Reason.RETAINED_WITHIN_AGE)) := by
  have hdy : (0 : Int) ≤ nsPerDay := by norm_num [nsPerDay]
  have hnm : img.imageDigest ∉ retainedDigests prefixes images := by simpa using hret
  refine ⟨?_, ?_, ?_⟩
  · rw [imageAge, Int.fdiv_eq_tdiv (by omega) hdy]
  · constructor
    · intro h
      by_contra hnot
      have : ¬ imageAge now t > retention := by omega
      simp [decideImageB, hpt, htag, hnm, this] at h
    · intro h
      simp [decideImageB, hpt, htag, hnm, show imageAge now t > retention from h]
  · intro h
    have : ¬ imageAge now t > retention := by omega
    simp [decideImageB, hpt, htag, hnm, this]

/-- Witness for `age_boundary_amended` at a concrete boundary input. -/
theorem age_boundary_amended_witness :
    imageAge (5 * nsPerDay) 0 = Int.fdiv (5 * nsPerDay - 0) nsPerDay
      ∧ (decideImageB (retainedDigests ["x"] [ImageDetail.mk "sha-w" ["y"] (some 0)]) 5
            (5 * nsPerDay) (ImageDetail.mk "sha-w" ["y"] (some 0))
            = some (Decision.mk "sha-w" Action.DELETE Reason.AGED_OUT)
          ↔ 5 < imageAge (5 * nsPerDay) 0)
      ∧ (imageAge (5 * nsPerDay) 0 = 5 →
          decideImageB (retainedDigests ["x"] [ImageDetail.mk "sha-w" ["y"] (some 0)]) 5
            (5 * nsPerDay) (ImageDetail.mk "sha-w" ["y"] (some 0))
            = some (Decision.mk "sha-w" Action.KEEP Reason.RETAINED_WITHIN_AGE)) :=
  age_boundary_amended ["x"] 5 (5 * nsPerDay) [ImageDetail.mk "sha-w" ["y"] (some 0)]
    (ImageDetail.mk "sha-w" ["y"] (some 0)) 0 rfl (by decide) (by decide) (by decide)

/-- Claim C8: the `BatchDeleteImage` call in `src/scripts/main.go` is
reached only outside dry-run mode and only for an image that is tagged,
not in `retainedDigests`, and whose truncated age strictly exceeds the
retention threshold.  In particular no delete call is ever issued for an
untagged image (those only produce a log line and `continue`). -/
theorem delete_calls_only_tagged_aged (prefixes : List String) (retention now : Int)
    (dryRun : Bool) (images : List ImageDetail) (d : String)
    (h : d ∈ deleteCallsB prefixes retention now dryRun images) :
    dryRun = false
      ∧ ∃ img ∈ images, img.imageDigest = d ∧ img.imageTags ≠ []
          ∧ (retainedDigests prefixes images).contains img.imageDigest = false
          ∧ ∃ t : Int, img.imagePushedAt = some t ∧ retention < imageAge now t := by
  unfold deleteCallsB at h
  rw [List.mem_filterMap] at h
  obtain ⟨img, hmem, heq⟩ := h
  cases hpt : img.imagePushedAt with
  | none => simp [hpt] at heq
  | some t =>
    simp only [hpt] at heq
    by_cases h1 : img.imageTags = []
    · rw [if_pos h1] at heq
      exact absurd heq (by simp)
    rw [if_neg h1] at heq
    by_cases h2 : (retainedDigests prefixes images).contains img.imageDigest = true
    · rw [if_pos h2] at heq
      exact absurd heq (by simp)
    rw [if_neg h2] at heq
    by_cases h3 : imageAge now t > retention
    · rw [if_pos h3] at heq
      cases hdr : dryRun with
      | true =>
        rw [hdr] at heq
        exact absurd heq (by simp)
      | false =>
        rw [hdr] at heq
        simp only [Bool.false_eq_true, if_false] at heq
        refine ⟨rfl, img, hmem, Option.some_injective _ heq, h1, ?_, t, hpt, h3⟩
        simpa using h2
    · rw [if_neg h3] at heq
      exact absurd heq (by simp)

/-- Witness for `delete_calls_only_tagged_aged`: a concrete 40-day-old
image reaches the delete call. -/
theorem delete_calls_only_tagged_aged_witness :
    false = false
      ∧ ∃ img ∈ [ImageDetail.mk "sha-d" ["y"] (some 0)], img.imageDigest = "sha-d"
          ∧ img.imageTags ≠ []
          ∧ (retainedDigests ["x"] [ImageDetail.mk "sha-d" ["y"] (some 0)]).contains
              img.imageDigest = false
          ∧ ∃ t : Int, img.imagePushedAt = some t ∧ 10 < imageAge (40 * nsPerDay) t :=
  delete_calls_only_tagged_aged ["x"] 10 (40 * nsPerDay) false
    [ImageDetail.mk "sha-d" ["y"] (some 0)] "sha-d" (by decide)

/-- Entries contributed to a prefix group all carry the contributing
image's digest. -/
theorem digest_eq_of_mem_entries {prefixes : List String} {p : String}
    {img : ImageDetail} {e : TaggedImage} (he : e ∈ imageGroupEntries prefixes p img) :
    e.digest = img.imageDigest := by
  cases hpt : img.imagePushedAt with
  | none => simp [imageGroupEntries, hpt] at he
  | some t =>
    simp only [imageGroupEntries, hpt] at he
    by_cases htag : img.imageTags = []
    · rw [if_pos htag] at he; cases he
    · rw [if_neg htag] at he
      obtain ⟨tag, _, rfl⟩ := List.mem_map.mp he
      rfl

/-- Characterization of membership in an image's group contribution. -/
theorem mem_imageGroupEntries {prefixes : List String} {p : String}
    {img : ImageDetail} {t : Int} (hpt : img.imagePushedAt = some t) {e : TaggedImage} :
    e ∈ imageGroupEntries prefixes p img ↔
      (img.imageTags ≠ [] ∧ e = TaggedImage.mk img.imageDigest img.imageTags t
        ∧ ∃ tag ∈ img.imageTags, firstMatch prefixes tag = some p) := by
  simp only [imageGroupEntries, hpt]
  by_cases htag : img.imageTags = []
  · simp [htag]
  · rw [if_neg htag]
    constructor
    · intro he
      obtain ⟨tag, htm, rfl⟩ := List.mem_map.mp he
      obtain ⟨htag2, hfm⟩ := List.mem_filter.mp htm
      exact ⟨htag, rfl, tag, htag2, by simpa using hfm⟩
    · rintro ⟨-, rfl, tag, htm, hfm⟩
      exact List.mem_map.mpr ⟨tag, List.mem_filter.mpr ⟨htm, by simpa using hfm⟩, rfl⟩

/-- Characterization of membership in a prefix group: the image is present
once for each tag whose first matching prefix (in prefix-list order) is
`p`. -/
theorem mem_matchMap {prefixes : List String} {images : List ImageDetail}
    {p : String} {e : TaggedImage} :
    e ∈ matchMap prefixes images p ↔
      ∃ img ∈ images, ∃ t : Int, img.imagePushedAt = some t ∧ img.imageTags ≠ []
        ∧ e = TaggedImage.mk img.imageDigest img.imageTags t
        ∧ ∃ tag ∈ img.imageTags, firstMatch prefixes tag = some p := by
  rw [matchMap, List.mem_flatMap]
  constructor
  · rintro ⟨img, hmem, he⟩
    cases hpt : img.imagePushedAt with
    | none => simp [imageGroupEntries, hpt] at he
    | some t =>
      obtain ⟨htag, rfl, tag, htm, hfm⟩ := (mem_imageGroupEntries hpt).mp he
      exact ⟨img, hmem, t, hpt, htag, rfl, tag, htm, hfm⟩
  · rintro ⟨img, hmem, t, hpt, htag, rfl, tag, htm, hfm⟩
    exact ⟨img, hmem, (mem_imageGroupEntries hpt).mpr ⟨htag, rfl, tag, htm, hfm⟩⟩

/-- Claim C1 (amended): the retained set is the union over the prefix list
of the top-2 digests of each group, where an image belongs to the group of
`p` exactly when `p` is the FIRST prefix in the list matched by at least
one of its tags — not the group of every matching prefix. -/
theorem retained_union_of_first_match (prefixes : List String)
    (images : List ImageDetail) (d : String) :
    (d ∈ retainedDigests prefixes images ↔
        ∃ p ∈ prefixes,
          d ∈ ((sortByTimeDesc (matchMap prefixes images p)).take 2).map TaggedImage.digest)
      ∧ ∀ (p : String) (e : TaggedImage),
          e ∈ matchMap prefixes images p ↔
            ∃ img ∈ images, ∃ t : Int, img.imagePushedAt = some t ∧ img.imageTags ≠ []
              ∧ e = TaggedImage.mk img.imageDigest img.imageTags t
              ∧ ∃ tag ∈ img.imageTags, firstMatch prefixes tag = some p := by
  constructor
  · rw [retainedDigests, List.mem_flatMap]
  · intro p e
    exact mem_matchMap

/-- Claim C1 counterexample: prefixes `["la", "latest"]` overlap.  The image
`sha-i1` carries the tag `"latest"`, which matches the retained prefix
`"latest"`, so per the claim it belongs to that group; being that group's
only member it would be retained (KEEP/RETAINED_RECENT_MATCH).  In the code
the tag's FIRST matching prefix is `"la"` whose group is crowded by two
newer images, the `"latest"` group is empty, and the image is deleted. -/
theorem multi_prefix_group_membership_cex :
    hasPrefixGo "latest" "latest" = true
      ∧ specGroupB ["la", "latest"]
          [ImageDetail.mk "sha-x1" ["la-x"] (some 300),
           ImageDetail.mk "sha-x2" ["la-y"] (some 200),
           ImageDetail.mk "sha-i1" ["latest"] (some 100)] "latest"
          = [TaggedImage.mk "sha-i1" ["latest"] 100]
      ∧ matchMap ["la", "latest"]
          [ImageDetail.mk "sha-x1" ["la-x"] (some 300),
           ImageDetail.mk "sha-x2" ["la-y"] (some 200),
           ImageDetail.mk "sha-i1" ["latest"] (some 100)] "latest" = []
      ∧ (retainedDigests ["la", "latest"]
          [ImageDetail.mk "sha-x1" ["la-x"] (some 300),
           ImageDetail.mk "sha-x2" ["la-y"] (some 200),
           ImageDetail.mk "sha-i1" ["latest"] (some 100)]).contains "sha-i1" = false
      ∧ evaluateB ["la", "latest"] 10 (40 * nsPerDay)
          [ImageDetail.mk "sha-x1" ["la-x"] (some 300),
           ImageDetail.mk "sha-x2" ["la-y"] (some 200),
           ImageDetail.mk "sha-i1" ["latest"] (some 100)]
          = [Decision.mk "sha-x1" Action.KEEP Reason.RETAINED_RECENT_MATCH,
             Decision.mk "sha-x2" Action.KEEP Reason.RETAINED_RECENT_MATCH,
             Decision.mk "sha-i1" Action.DELETE Reason.AGED_OUT] := by
  refine ⟨by decide, by decide, by decide, by decide, by decide⟩

theorem countP_imageGroupEntries_self (prefixes : List String) (p : String)
    (img : ImageDetail) (t : Int) (hpt : img.imagePushedAt = some t) :
    (imageGroupEntries prefixes p img).countP (fun e => e.digest == img.imageDigest)
      = (img.imageTags.filter (fun tag => firstMatch prefixes tag == some p)).length := by
  simp only [imageGroupEntries, hpt]
  by_cases htag : img.imageTags = []
  · simp [htag]
  · rw [if_neg htag, List.countP_map]
    have hconst : ∀ tag ∈ img.imageTags.filter (fun tag => firstMatch prefixes tag == some p),
        ((fun e : TaggedImage => e.digest == img.imageDigest)
          ∘ fun _ => TaggedImage.mk img.imageDigest img.imageTags t) tag = true := by
      intro tag _
      simp
    calc (img.imageTags.filter (fun tag => firstMatch prefixes tag == some p)).countP
          ((fun e : TaggedImage => e.digest == img.imageDigest)
            ∘ fun _ => TaggedImage.mk img.imageDigest img.imageTags t)
        = (img.imageTags.filter (fun tag => firstMatch prefixes tag == some p)).countP
            (fun _ => true) := List.countP_congr (fun x hx => by simp)
      _ = (img.imageTags.filter (fun tag => firstMatch prefixes tag == some p)).length := by
          simp [List.countP_true]

theorem countP_imageGroupEntries_other (prefixes : List String) (p : String)
    {img other : ImageDetail} (hne : other.imageDigest ≠ img.imageDigest) :
    (imageGroupEntries prefixes p other).countP (fun e => e.digest == img.imageDigest) = 0 := by
  rw [List.countP_eq_zero]
  intro e he
  have hd : e.digest = other.imageDigest := digest_eq_of_mem_entries he
  simp only [beq_iff_eq, hd]
  exact hne

/-- How often a given image's digest occurs in the group of `p`: once per
tag whose first matching prefix is `p` (digests assumed unique per
repository, as in ECR). -/
theorem matchMap_countP_digest (prefixes : List String) (images : List ImageDetail)
    (img : ImageDetail) (p : String) (t : Int)
    (hnd : (images.map ImageDetail.imageDigest).Nodup) (hmem : img ∈ images)
    (hpt : img.imagePushedAt = some t) :
    (matchMap prefixes images p).countP (fun e => e.digest == img.imageDigest)
      = (img.imageTags.filter (fun tag => firstMatch prefixes tag == some p)).length := by
  induction images with
  | nil => cases hmem
  | cons a l ih =>
    rw [List.map_cons, List.nodup_cons] at hnd
    obtain ⟨hhead, htail⟩ := hnd
    rw [matchMap, List.flatMap_cons, List.countP_append]
    rcases List.mem_cons.mp hmem with rfl | hmem'
    · rw [countP_imageGroupEntries_self prefixes p img t hpt]
      have hzero : (l.flatMap (imageGroupEntries prefixes p)).countP
          (fun e => e.digest == img.imageDigest) = 0 := by
        rw [List.countP_eq_zero]
        intro e he
        obtain ⟨b, hb, hbe⟩ := List.mem_flatMap.mp he
        have hd : e.digest = b.imageDigest := digest_eq_of_mem_entries hbe
        simp only [beq_iff_eq, hd]
        intro hcontra
        exact hhead (hcontra ▸ List.mem_map_of_mem ImageDetail.imageDigest hb)
      rw [hzero, Nat.add_zero]
    · have hne : a.imageDigest ≠ img.imageDigest := by
        intro hcontra
        exact hhead (hcontra ▸ List.mem_map_of_mem ImageDetail.imageDigest hmem')
      rw [countP_imageGroupEntries_other prefixes p hne, Nat.zero_add]
      have := ih htail hmem'
      rw [matchMap] at this
      exact this

/-- Claim C9 (amended): an image joins the group of prefix `p` once per tag
whose FIRST matching prefix in the list is `p` (not once per tag merely
matching `p`).  Duplicate entries of one digest can indeed fill several of
a group's two keep slots: concretely, `sha-x` with two `dev` tags occupies
both slots of the `dev` group and the older distinct digest `sha-y` is not
retained. -/
theorem group_entries_once_per_first_match (prefixes : List String)
    (images : List ImageDetail) (img : ImageDetail) (p : String) (t : Int)
    (hnd : (images.map ImageDetail.imageDigest).Nodup) (hmem : img ∈ images)
    (hpt : img.imagePushedAt = some t) :
    (matchMap prefixes images p).countP (fun e => e.digest == img.imageDigest)
        = (img.imageTags.filter (fun tag => firstMatch prefixes tag == some p)).length
      ∧ retainedDigests ["dev"]
          [ImageDetail.mk "sha-x" ["dev1", "dev2"] (some 100),
           ImageDetail.mk "sha-y" ["dev3"] (some 50)] = ["sha-x", "sha-x"]
      ∧ (retainedDigests ["dev"]
          [ImageDetail.mk "sha-x" ["dev1", "dev2"] (some 100),
           ImageDetail.mk "sha-y" ["dev3"] (some 50)]).contains "sha-y" = false :=
  ⟨matchMap_countP_digest prefixes images img p t hnd hmem hpt, by decide, by decide⟩

/-- Witness for `group_entries_once_per_first_match`: the two-`dev`-tag
image contributes two entries to the `dev` group. -/
theorem group_entries_once_per_first_match_witness :
    (matchMap ["dev"]
        [ImageDetail.mk "sha-x" ["dev1", "dev2"] (some 100),
         ImageDetail.mk "sha-y" ["dev3"] (some 50)] "dev").countP
        (fun e => e.digest == (ImageDetail.mk "sha-x" ["dev1", "dev2"] (some 100)).imageDigest)
        = ((ImageDetail.mk "sha-x" ["dev1", "dev2"] (some 100)).imageTags.filter
            (fun tag => firstMatch ["dev"] tag == some "dev")).length
      ∧ retainedDigests ["dev"]
          [ImageDetail.mk "sha-x" ["dev1", "dev2"] (some 100),
           ImageDetail.mk "sha-y" ["dev3"] (some 50)] = ["sha-x", "sha-x"]
      ∧ (retainedDigests ["dev"]
          [ImageDetail.mk "sha-x" ["dev1", "dev2"] (some 100),
           ImageDetail.mk "sha-y" ["dev3"] (some 50)]).contains "sha-y" = false :=
  group_entries_once_per_first_match ["dev"]
    [ImageDetail.mk "sha-x" ["dev1", "dev2"] (some 100),
     ImageDetail.mk "sha-y" ["dev3"] (some 50)]
    (ImageDetail.mk "sha-x" ["dev1", "dev2"] (some 100)) "dev" 100
    (by decide) (by decide) rfl

/-- Claim C9 counterexample: with overlapping prefixes `["d", "dev"]`, both
tags of `sha-x` match the retained prefix `"dev"`, yet the `"dev"` group
receives NO entry for the image (each tag is filed under its first match
`"d"`), refuting "appended once per matching tag". -/
theorem same_prefix_two_tags_zero_entries_cex :
    hasPrefixGo "dev1" "dev" = true
      ∧ hasPrefixGo "dev2" "dev" = true
      ∧ matchMap ["d", "dev"] [ImageDetail.mk "sha-x" ["dev1", "dev2"] (some 100)] "dev" = []
      ∧ (matchMap ["d", "dev"] [ImageDetail.mk "sha-x" ["dev1", "dev2"] (some 100)] "d").length
          = 2 := by
  refine ⟨by decide, by decide, by decide, by decide⟩

/-- Go's `strings.Split("", ",")` yields `[""]`; the same holds for the
Lean model of splitting. -/
theorem splitOn_empty_comma : "".splitOn "," = [""] := by
  rw [String.splitOn]
  norm_num
  rw [String.splitOnAux]
  simp [String.atEnd, String.extract]
  intro h
  exact absurd rfl h

/-- The empty string is a prefix of every string. -/
theorem hasPrefixGo_empty (s : String) : hasPrefixGo s "" = true := by
  unfold hasPrefixGo
  have hd : "".data = [] := rfl
  rw [hd]
  cases s.data <;> rfl

/-- Characterization of membership in `taggedMatches` of Variant A. -/
theorem mem_taggedMatchesA {prefixes : List String} {images : List ImageDetail}
    {e : TaggedImage} :
    e ∈ taggedMatchesA prefixes images ↔
      ∃ img ∈ images, ∃ t : Int, img.imagePushedAt = some t ∧ img.imageTags ≠ []
        ∧ matchedA prefixes img = true
        ∧ e = TaggedImage.mk img.imageDigest img.imageTags t := by
  unfold taggedMatchesA
  rw [List.mem_filterMap]
  constructor
  · rintro ⟨img, hmem, heq⟩
    cases hpt : img.imagePushedAt with
    | none => simp [matchEntryA, hpt] at heq
    | some t =>
      simp only [matchEntryA, hpt] at heq
      by_cases htag : img.imageTags = []
      · rw [if_pos htag] at heq
        cases heq
      · rw [if_neg htag] at heq
        by_cases hmt : matchedA prefixes img = true
        · rw [if_pos hmt] at heq
          exact ⟨img, hmem, t, hpt, htag, hmt, (Option.some_injective _ heq).symm⟩
        · rw [if_neg hmt] at heq
          cases heq
  · rintro ⟨img, hmem, t, hpt, htag, hmt, rfl⟩
    refine ⟨img, hmem, ?_⟩
    simp [matchEntryA, hpt, htag, hmt]

/-- Claim C10: splitting the empty prefix input on commas yields the
one-element list containing the empty string, and once the empty string is
among the retained prefixes every tagged image with a push timestamp is
prefix-matched: it enters Variant A's `taggedMatches` ranking and some
prefix group of Variant B, competing for the keep slots. -/
theorem empty_string_matches_all (prefixes : List String) (images : List ImageDetail)
    (img : ImageDetail) (t : Int) (hpre : "" ∈ prefixes) (hmem : img ∈ images)
    (hpt : img.imagePushedAt = some t) (htag : img.imageTags ≠ []) :
    "".splitOn "," = [""]
      ∧ matchedA prefixes img = true
      ∧ TaggedImage.mk img.imageDigest img.imageTags t ∈ taggedMatchesA prefixes images
      ∧ ∃ p ∈ prefixes, TaggedImage.mk img.imageDigest img.imageTags t
          ∈ matchMap prefixes images p := by
  obtain ⟨tag, htm⟩ := List.exists_mem_of_ne_nil img.imageTags htag
  have hmt : matchedA prefixes img = true := by
    unfold matchedA
    rw [List.any_eq_true]
    exact ⟨tag, htm, List.any_eq_true.mpr ⟨"", hpre, hasPrefixGo_empty tag⟩⟩
  have hfind : (firstMatch prefixes tag).isSome := by
    rw [firstMatch, List.find?_isSome]
    exact ⟨"", hpre, hasPrefixGo_empty tag⟩
  obtain ⟨p, hp⟩ := Option.isSome_iff_exists.mp hfind
  refine ⟨splitOn_empty_comma, hmt, ?_, p, ?_, ?_⟩
  · exact mem_taggedMatchesA.mpr ⟨img, hmem, t, hpt, htag, hmt, rfl⟩
  · exact List.mem_of_find?_eq_some hp
  · exact mem_matchMap.mpr ⟨img, hmem, t, hpt, htag, rfl, tag, htm, hp⟩

/-- Witness for `empty_string_matches_all`: with the prefix list produced
from the empty input, an arbitrarily tagged image is matched. -/
theorem empty_string_matches_all_witness :
    "".splitOn "," = [""]
      ∧ matchedA [""] (ImageDetail.mk "sha-e" ["anytag"] (some 7)) = true
      ∧ TaggedImage.mk "sha-e" ["anytag"] 7
          ∈ taggedMatchesA [""] [ImageDetail.mk "sha-e" ["anytag"] (some 7)]
      ∧ ∃ p ∈ [""], TaggedImage.mk "sha-e" ["anytag"] 7
          ∈ matchMap [""] [ImageDetail.mk "sha-e" ["anytag"] (some 7)] p :=
  empty_string_matches_all [""] [ImageDetail.mk "sha-e" ["anytag"] (some 7)]
    (ImageDetail.mk "sha-e" ["anytag"] (some 7)) 7 (by decide) (by decide) rfl (by decide)

/-- Claim C6: an untagged image with a push timestamp is always classified
DELETE/UNTAGGED.  In Variant B the untagged branch fires before the
retained-set lookup; in Variant A the image lands in the `untagged` delete
list and (with unique digests) no KEEP decision carries its digest. -/
theorem untagged_never_kept (prefixes : List String) (retention now : Int)
    (images : List ImageDetail) (img : ImageDetail) (t : Int)
    (hnd : (images.map ImageDetail.imageDigest).Nodup)
    (hmem : img ∈ images) (hpt : img.imagePushedAt = some t)
    (htag : img.imageTags = []) :
    decideImageB (retainedDigests prefixes images) retention now img
        = some (Decision.mk img.imageDigest Action.DELETE Reason.UNTAGGED)
      ∧ Decision.mk img.imageDigest Action.DELETE Reason.UNTAGGED ∈ evaluateA prefixes images
      ∧ ∀ r : Reason, Decision.mk img.imageDigest Action.KEEP r ∉ evaluateA prefixes images := by
  refine ⟨by simp [decideImageB, hpt, htag], ?_, ?_⟩
  · unfold evaluateA
    apply List.mem_append_right
    apply List.mem_map.mpr
    refine ⟨img, ?_, by rfl⟩
    unfold untaggedA
    exact List.mem_filter.mpr ⟨hmem, by simp [hpt, htag]⟩
  · intro r hr
    unfold evaluateA at hr
    rcases List.mem_append.mp hr with h12 | h3
    · rcases List.mem_append.mp h12 with hA | hB
      · obtain ⟨e, he, heq⟩ := List.mem_map.mp hA
        have he2 : e ∈ taggedMatchesA prefixes images :=
          ((sortByTimeDesc_perm (taggedMatchesA prefixes images)).mem_iff).mp
            (List.mem_of_mem_take he)
        obtain ⟨img2, hmem2, t2, hpt2, htag2, _, rfl⟩ := mem_taggedMatchesA.mp he2
        have hdig : img2.imageDigest = img.imageDigest := congrArg Decision.digest heq
        have : img2 = img := List.inj_on_of_nodup_map hnd hmem2 hmem hdig
        exact htag2 (this ▸ htag)
      · obtain ⟨e, he, heq⟩ := List.mem_map.mp hB
        have : Action.DELETE = Action.KEEP := congrArg Decision.action heq
        cases this
    · obtain ⟨e, he, heq⟩ := List.mem_map.mp h3
      have : Action.DELETE = Action.KEEP := congrArg Decision.action heq
      cases this

/-- Witness for `untagged_never_kept` at a concrete untagged image. -/
theorem untagged_never_kept_witness :
    decideImageB (retainedDigests ["x"] [ImageDetail.mk "sha-u" ([] : List String) (some 3)])
        7 9 (ImageDetail.mk "sha-u" ([] : List String) (some 3))
        = some (Decision.mk "sha-u" Action.DELETE Reason.UNTAGGED)
      ∧ Decision.mk "sha-u" Action.DELETE Reason.UNTAGGED
          ∈ evaluateA ["x"] [ImageDetail.mk "sha-u" ([] : List String) (some 3)]
      ∧ ∀ r : Reason, Decision.mk "sha-u" Action.KEEP r
          ∉ evaluateA ["x"] [ImageDetail.mk "sha-u" ([] : List String) (some 3)] :=
  untagged_never_kept ["x"] 7 9 [ImageDetail.mk "sha-u" ([] : List String) (some 3)]
    (ImageDetail.mk "sha-u" ([] : List String) (some 3)) 3 (by decide) (by decide) rfl rfl

/-- With pairwise distinct digests, counting the records that carry a given
member's digest and satisfy `q` picks out exactly that member. -/
theorem countP_images_digest (images : List ImageDetail) (img : ImageDetail)
    (q : ImageDetail → Bool)
    (hnd : (images.map ImageDetail.imageDigest).Nodup) (hmem : img ∈ images) :
    images.countP (fun a => (a.imageDigest == img.imageDigest) && q a)
      = if q img then 1 else 0 := by
  induction images with
  | nil => cases hmem
  | cons a l ih =>
    rw [List.map_cons, List.nodup_cons] at hnd
    obtain ⟨hhead, htail⟩ := hnd
    rw [List.countP_cons]
    rcases List.mem_cons.mp hmem with rfl | hmem'
    · have hz : l.countP (fun a => (a.imageDigest == img.imageDigest) && q a) = 0 := by
        rw [List.countP_eq_zero]
        intro b hb hcon
        rw [Bool.and_eq_true, beq_iff_eq] at hcon
        exact hhead (hcon.1 ▸ List.mem_map_of_mem ImageDetail.imageDigest hb)
      rw [hz, Nat.zero_add]
      by_cases hq : q img = true <;> simp [hq]
    · have hne : ¬((a.imageDigest == img.imageDigest) && q a) = true := by
        intro hcon
        rw [Bool.and_eq_true, beq_iff_eq] at hcon
        exact hhead (hcon.1 ▸ List.mem_map_of_mem ImageDetail.imageDigest hmem')
      rw [if_neg hne, ih htail hmem', Nat.add_zero]

/-- Whether the Variant B classification of an image yields a decision for
digest `d`: exactly when the image has a push time and carries `d`. -/
theorem decideImageB_digest_pred (retainedSet : List String) (retention now : Int)
    (d : String) (a : ImageDetail) :
    ((decideImageB retainedSet retention now a).map (fun x => x.digest == d)).getD false
      = ((a.imageDigest == d) && a.imagePushedAt.isSome) := by
  cases hpt : a.imagePushedAt with
  | none =>
    have h1 : decideImageB retainedSet retention now a = none := by
      unfold decideImageB
      rw [hpt]
    rw [h1]
    simp
  | some t =>
    simp only [decideImageB, hpt]
    split_ifs <;> simp

/-- Whether an image's Variant A match entry carries digest `d`. -/
theorem matchEntryA_digest_pred (prefixes : List String) (d : String) (a : ImageDetail) :
    ((matchEntryA prefixes a).map (fun e => e.digest == d)).getD false
      = ((a.imageDigest == d)
          && (a.imagePushedAt.isSome && (!a.imageTags.isEmpty && matchedA prefixes a))) := by
  cases hpt : a.imagePushedAt with
  | none => simp [matchEntryA, hpt]
  | some t =>
    by_cases htag : a.imageTags = []
    · simp [matchEntryA, hpt, htag]
    · by_cases hmt : matchedA prefixes a = true
      · simp [matchEntryA, hpt, htag, hmt, List.isEmpty_iff]
      · simp [matchEntryA, hpt, htag, hmt, List.isEmpty_iff]

/-- The digests of Variant A's match entries form a sublist of the input
digests. -/
theorem taggedMatchesA_digests_sublist (prefixes : List String)
    (images : List ImageDetail) :
    ((taggedMatchesA prefixes images).map TaggedImage.digest).Sublist
      (images.map ImageDetail.imageDigest) := by
  induction images with
  | nil => simp [taggedMatchesA]
  | cons a l ih =>
    rw [taggedMatchesA, List.filterMap_cons, List.map_cons]
    cases hma : matchEntryA prefixes a with
    | none =>
      rw [taggedMatchesA] at ih
      exact ih.cons a.imageDigest
    | some e =>
      have hd : e.digest = a.imageDigest := by
        cases hpt : a.imagePushedAt with
        | none => rw [matchEntryA, hpt] at hma; cases hma
        | some t =>
          simp only [matchEntryA, hpt] at hma
          by_cases htag : a.imageTags = []
          · rw [if_pos htag] at hma; cases hma
          · rw [if_neg htag] at hma
            by_cases hmt : matchedA prefixes a = true
            · rw [if_pos hmt] at hma
              rw [← Option.some_injective _ hma]
            · rw [if_neg hmt] at hma; cases hma
      rw [List.map_cons, hd]
      rw [taggedMatchesA] at ih
      exact ih.cons₂ a.imageDigest

/-- How often digest of `img` occurs among Variant A's match entries. -/
theorem countP_taggedMatchesA_digest (prefixes : List String)
    (images : List ImageDetail) (img : ImageDetail)
    (hnd : (images.map ImageDetail.imageDigest).Nodup) (hmem : img ∈ images) :
    (taggedMatchesA prefixes images).countP (fun e => e.digest == img.imageDigest)
      = if img.imagePushedAt.isSome && (!img.imageTags.isEmpty && matchedA prefixes img)
        then 1 else 0 := by
  rw [taggedMatchesA, List.countP_filterMap]
  have hcg : images.countP
        (fun a => (Option.map (fun e => e.digest == img.imageDigest)
          (matchEntryA prefixes a)).getD false)
      = images.countP (fun a => (a.imageDigest == img.imageDigest)
          && (a.imagePushedAt.isSome && (!a.imageTags.isEmpty && matchedA prefixes a))) := by
    apply List.countP_congr
    intro a _
    rw [matchEntryA_digest_pred]
  rw [hcg, countP_images_digest images img _ hnd hmem]

/-- Variant B emits exactly one decision for each digest whose record has a
push timestamp (digests assumed unique per repository). -/
theorem decCount_evaluateB (prefixes : List String) (retention now : Int)
    (images : List ImageDetail) (img : ImageDetail)
    (hnd : (images.map ImageDetail.imageDigest).Nodup) (hmem : img ∈ images)
    (hpt : img.imagePushedAt.isSome = true) :
    decCount (evaluateB prefixes retention now images) img.imageDigest = 1 := by
  rw [decCount, evaluateB, List.countP_filterMap]
  have hcg : images.countP (fun a => (Option.map (fun x => x.digest == img.imageDigest)
        (decideImageB (retainedDigests prefixes images) retention now a)).getD false)
      = images.countP (fun a => (a.imageDigest == img.imageDigest)
          && a.imagePushedAt.isSome) := by
    apply List.countP_congr
    intro a _
    rw [decideImageB_digest_pred]
  rw [hcg, countP_images_digest images img _ hnd hmem, if_pos hpt]

/-- Variant A emits exactly one decision for a digest whose record is
untagged or prefix-matched, and none for a tagged record matching no
prefix. -/
theorem decCount_evaluateA (prefixes : List String) (images : List ImageDetail)
    (img : ImageDetail)
    (hnd : (images.map ImageDetail.imageDigest).Nodup) (hmem : img ∈ images)
    (hpt : img.imagePushedAt.isSome = true) :
    decCount (evaluateA prefixes images) img.imageDigest
      = if img.imageTags = [] ∨ matchedA prefixes img = true then 1 else 0 := by
  have hsorted_eq : (sortByTimeDesc (taggedMatchesA prefixes images)).countP
        (fun e => e.digest == img.imageDigest)
      = (taggedMatchesA prefixes images).countP (fun e => e.digest == img.imageDigest) :=
    (sortByTimeDesc_perm (taggedMatchesA prefixes images)).countP_eq _
  have htm := countP_taggedMatchesA_digest prefixes images img hnd hmem
  have hsplit : ((sortByTimeDesc (taggedMatchesA prefixes images)).take 2).countP
          (fun e => e.digest == img.imageDigest)
        + ((sortByTimeDesc (taggedMatchesA prefixes images)).drop 2).countP
          (fun e => e.digest == img.imageDigest)
      = (taggedMatchesA prefixes images).countP (fun e => e.digest == img.imageDigest) := by
    rw [← List.countP_append, List.take_append_drop]
    exact hsorted_eq
  have hA : (((sortByTimeDesc (taggedMatchesA prefixes images)).take 2).map
        (fun i => Decision.mk i.digest Action.KEEP Reason.RETAINED_RECENT_MATCH)).countP
        (fun x => x.digest == img.imageDigest)
      = ((sortByTimeDesc (taggedMatchesA prefixes images)).take 2).countP
        (fun e => e.digest == img.imageDigest) := by
    rw [List.countP_map]
    rfl
  have hB : (((sortByTimeDesc (taggedMatchesA prefixes images)).filter
        (fun i => !((keepDigestsA prefixes images).contains i.digest))).map
        (fun i => Decision.mk i.digest Action.DELETE Reason.AGED_OUT)).countP
        (fun x => x.digest == img.imageDigest)
      = (sortByTimeDesc (taggedMatchesA prefixes images)).countP
        (fun e => (e.digest == img.imageDigest)
          && !((keepDigestsA prefixes images).contains e.digest)) := by
    rw [List.countP_map, List.countP_filter]
    rfl
  have hC : ((untaggedA images).map
        (fun i => Decision.mk i.imageDigest Action.DELETE Reason.UNTAGGED)).countP
        (fun x => x.digest == img.imageDigest)
      = if img.imagePushedAt.isSome && decide (img.imageTags = []) then 1 else 0 := by
    rw [List.countP_map, untaggedA, List.countP_filter]
    have hcg : images.countP (fun a =>
          ((fun x : Decision => x.digest == img.imageDigest)
              ∘ fun i => Decision.mk i.imageDigest Action.DELETE Reason.UNTAGGED) a
            && (a.imagePushedAt.isSome && decide (a.imageTags = [])))
        = images.countP (fun a => (a.imageDigest == img.imageDigest)
            && (a.imagePushedAt.isSome && decide (a.imageTags = []))) := rfl
    rw [hcg, countP_images_digest images img _ hnd hmem]
  rw [decCount, evaluateA, List.countP_append, List.countP_append, hA, hB, hC]
  by_cases htag : img.imageTags = []
  · have htm0 : (taggedMatchesA prefixes images).countP
        (fun e => e.digest == img.imageDigest) = 0 := by
      rw [htm, if_neg]
      simp [htag]
    have hs0 : (sortByTimeDesc (taggedMatchesA prefixes images)).countP
        (fun e => e.digest == img.imageDigest) = 0 := by rw [hsorted_eq, htm0]
    have hA0 : ((sortByTimeDesc (taggedMatchesA prefixes images)).take 2).countP
        (fun e => e.digest == img.imageDigest) = 0 :=
      Nat.le_zero.mp (hs0 ▸ (List.take_sublist 2 _).countP_le _)
    have hB0 : (sortByTimeDesc (taggedMatchesA prefixes images)).countP
        (fun e => (e.digest == img.imageDigest)
          && !((keepDigestsA prefixes images).contains e.digest)) = 0 := by
      refine Nat.le_zero.mp (hs0 ▸ List.countP_mono_left ?_)
      intro e _ he
      rw [Bool.and_eq_true] at he
      exact he.1
    rw [hA0, hB0, if_pos (by simp [hpt, htag]), if_pos (Or.inl htag)]
  · by_cases hmt : matchedA prefixes img = true
    · have htm1 : (taggedMatchesA prefixes images).countP
          (fun e => e.digest == img.imageDigest) = 1 := by
        rw [htm, if_pos]
        simp [hpt, htag, hmt, List.isEmpty_iff]
      have hC0 : (if img.imagePushedAt.isSome && decide (img.imageTags = [])
          then 1 else 0) = 0 := by simp [htag]
      have htake_le : ((sortByTimeDesc (taggedMatchesA prefixes images)).take 2).countP
          (fun e => e.digest == img.imageDigest) ≤ 1 := by omega
      by_cases htake : ((sortByTimeDesc (taggedMatchesA prefixes images)).take 2).countP
          (fun e => e.digest == img.imageDigest) = 1
      · have hpos : 0 < ((sortByTimeDesc (taggedMatchesA prefixes images)).take 2).countP
            (fun e => e.digest == img.imageDigest) := by omega
        obtain ⟨e, he, hbeq⟩ := List.countP_pos_iff.mp hpos
        have hd : e.digest = img.imageDigest := eq_of_beq hbeq
        have hk : img.imageDigest ∈ keepDigestsA prefixes images := by
          rw [keepDigestsA]
          exact hd ▸ List.mem_map_of_mem TaggedImage.digest he
        have hkc : (keepDigestsA prefixes images).contains img.imageDigest = true := by
          simpa using hk
        have hB0 : (sortByTimeDesc (taggedMatchesA prefixes images)).countP
            (fun e => (e.digest == img.imageDigest)
              && !((keepDigestsA prefixes images).contains e.digest)) = 0 := by
          rw [List.countP_eq_zero]
          intro i _ hcon
          rw [Bool.and_eq_true] at hcon
          obtain ⟨h1, h2⟩ := hcon
          rw [eq_of_beq h1, hkc] at h2
          cases h2
        rw [htake, hB0, hC0, if_pos (Or.inr hmt)]
      · have htake0 : ((sortByTimeDesc (taggedMatchesA prefixes images)).take 2).countP
            (fun e => e.digest == img.imageDigest) = 0 := by omega
        have hnk : img.imageDigest ∉ keepDigestsA prefixes images := by
          intro hin
          rw [keepDigestsA] at hin
          obtain ⟨e, he, hde⟩ := List.mem_map.mp hin
          have : 0 < ((sortByTimeDesc (taggedMatchesA prefixes images)).take 2).countP
              (fun e => e.digest == img.imageDigest) :=
            List.countP_pos_iff.mpr ⟨e, he, by simp [hde]⟩
          omega
        have hkc : (keepDigestsA prefixes images).contains img.imageDigest = false := by
          simpa using hnk
        have hB1 : (sortByTimeDesc (taggedMatchesA prefixes images)).countP
            (fun e => (e.digest == img.imageDigest)
              && !((keepDigestsA prefixes images).contains e.digest))
            = (sortByTimeDesc (taggedMatchesA prefixes images)).countP
              (fun e => e.digest == img.imageDigest) := by
          apply List.countP_congr
          intro e _
          constructor
          · intro hcon
            rw [Bool.and_eq_true] at hcon
            exact hcon.1
          · intro hcon
            rw [Bool.and_eq_true]
            refine ⟨hcon, ?_⟩
            rw [eq_of_beq hcon, hkc]
            rfl
        rw [htake0, hB1, hsorted_eq, htm1, hC0, if_pos (Or.inr hmt)]
    · have htm0 : (taggedMatchesA prefixes images).countP
          (fun e => e.digest == img.imageDigest) = 0 := by
        rw [htm, if_neg]
        simp [hmt]
      have hs0 : (sortByTimeDesc (taggedMatchesA prefixes images)).countP
          (fun e => e.digest == img.imageDigest) = 0 := by rw [hsorted_eq, htm0]
      have hA0 : ((sortByTimeDesc (taggedMatchesA prefixes images)).take 2).countP
          (fun e => e.digest == img.imageDigest) = 0 :=
        Nat.le_zero.mp (hs0 ▸ (List.take_sublist 2 _).countP_le _)
      have hB0 : (sortByTimeDesc (taggedMatchesA prefixes images)).countP
          (fun e => (e.digest == img.imageDigest)
            && !((keepDigestsA prefixes images).contains e.digest)) = 0 := by
        refine Nat.le_zero.mp (hs0 ▸ List.countP_mono_left ?_)
        intro e _ he
        rw [Bool.and_eq_true] at he
        exact he.1
      have hor : ¬(img.imageTags = [] ∨ matchedA prefixes img = true) := by
        rintro (h | h)
        · exact htag h
        · exact hmt h
      rw [hA0, hB0, if_neg (by simp [htag]), if_neg hor]

/-- Claim C2 (amended): with pairwise distinct digests, Variant B emits
exactly one decision for every digest whose record has a push timestamp.
Variant A does so only for records that are untagged or prefix-matched; a
tagged record matching no retained prefix receives no decision at all
(silently ignored), so it appears zero times instead of once. -/
theorem completeness_amended (prefixes : List String) (retention now : Int)
    (images : List ImageDetail) (img : ImageDetail)
    (hnd : (images.map ImageDetail.imageDigest).Nodup) (hmem : img ∈ images)
    (hpt : img.imagePushedAt.isSome = true) :
    decCount (evaluateB prefixes retention now images) img.imageDigest = 1
      ∧ decCount (evaluateA prefixes images) img.imageDigest
          = (if img.imageTags = [] ∨ matchedA prefixes img = true then 1 else 0) :=
  ⟨decCount_evaluateB prefixes retention now images img hnd hmem hpt,
   decCount_evaluateA prefixes images img hnd hmem hpt⟩

/-- Witness for `completeness_amended` on a three-image repository. -/
theorem completeness_amended_witness :
    decCount (evaluateB ["v"] 10 0
        [ImageDetail.mk "sha-c" ["v1"] (some 10),
         ImageDetail.mk "sha-b" ([] : List String) (some 5),
         ImageDetail.mk "sha-a" ["w3"] (some 5)]) "sha-a" = 1
      ∧ decCount (evaluateA ["v"]
          [ImageDetail.mk "sha-c" ["v1"] (some 10),
           ImageDetail.mk "sha-b" ([] : List String) (some 5),
           ImageDetail.mk "sha-a" ["w3"] (some 5)]) "sha-a"
          = (if (ImageDetail.mk "sha-a" ["w3"] (some 5)).imageTags = []
              ∨ matchedA ["v"] (ImageDetail.mk "sha-a" ["w3"] (some 5)) = true
             then 1 else 0) :=
  completeness_amended ["v"] 10 0
    [ImageDetail.mk "sha-c" ["v1"] (some 10),
     ImageDetail.mk "sha-b" ([] : List String) (some 5),
     ImageDetail.mk "sha-a" ["w3"] (some 5)]
    (ImageDetail.mk "sha-a" ["w3"] (some 5)) (by decide) (by decide) rfl

/-- Claim C2 counterexample: under Variant A a tagged image with a push
timestamp whose tag matches no retained prefix receives NO decision: the
output for a one-image repository is empty, so the digest appears zero
times, not exactly once. -/
theorem variantA_drops_unmatched_tagged_cex :
    (ImageDetail.mk "sha-g" ["y"] (some 0)).imagePushedAt.isSome = true
      ∧ evaluateA ["latest"] [ImageDetail.mk "sha-g" ["y"] (some 0)] = []
      ∧ decCount (evaluateA ["latest"] [ImageDetail.mk "sha-g" ["y"] (some 0)]) "sha-g" = 0 := by
  refine ⟨rfl, by decide, by decide⟩

end ECRCleanup
